import Mathlib

set_option maxRecDepth 16384
set_option exponentiation.threshold 1100

/-!
Shallow embedding of `app/guards.py`: numeric fact-checking guardrails for
generated sports-analytics text.

Modelling conventions:
* Python `re` matching is embedded as explicit backtracking matchers over
  `List Char`.  Character classes are the ASCII ones (CPython's `\d`, `\s`
  and `\b` are Unicode-aware; the verifier's inputs are ASCII sports text).
* Python floats are modelled as exact rationals plus the IEEE special
  values: string-conversion overflow beyond the double range collapses to a
  signed infinity (threshold `2^1024 - 2^970`, the smallest real that
  converts to infinity), and the sign of a negative zero is tracked.
  Mantissa rounding of binary doubles is not modelled (values stay exact
  rationals), nor is `float`'s underscore digit grouping ("1_0").
* Python exceptions are modelled by `Except PyExn` with a single error
  value; the embedding does not distinguish exception classes.
* Python sets are modelled as lists used only through membership.
-/

namespace Guards

/-- A raised Python exception (the embedding does not distinguish classes). -/
inductive PyExn where
  | exn
deriving DecidableEq

abbrev PyRes (α : Type) := Except PyExn α

/-- ASCII `[A-Za-z]`, the letter guard of `_NUM_RE`. -/
def isAsciiLetter (c : Char) : Bool :=
  (decide ('A' ≤ c) && decide (c ≤ 'Z')) || (decide ('a' ≤ c) && decide (c ≤ 'z'))

/-- ASCII word character, for the `\b` anchors of `_SCORE_RE`. -/
def isWordC (c : Char) : Bool :=
  isAsciiLetter c || c.isDigit || decide (c = '_')

/-- ASCII whitespace, for `\s` in `_SCORE_RE` and `float`'s stripping. -/
def isSpaceC (c : Char) : Bool :=
  decide (c = ' ') || decide (c = '\t') || decide (c = '\n') || decide (c = '\r') ||
    decide (c = '\x0b') || decide (c = '\x0c')

/-- Split off the maximal leading run of decimal digits. -/
def digitSpan : List Char → List Char × List Char
  | [] => ([], [])
  | c :: cs =>
    if c.isDigit then
      let p := digitSpan cs
      (c :: p.1, p.2)
    else ([], c :: cs)

/-! ### `_NUM_RE`

`(?<![A-Za-z]) -? \d{1,3} (?:,\d{3})* (?:\.\d+)? %? (?![A-Za-z])`,
embedded as a prioritized backtracking search exactly as CPython's engine
explores it: each greedy quantifier takes as much as possible, and the
most recent choice point backtracks first when the final lookahead fails. -/

/-- The trailing `(?![A-Za-z])` lookahead. -/
def numLookaheadOk : List Char → Bool
  | [] => true
  | c :: _ => !isAsciiLetter c

/-- `%?(?![A-Za-z])`: greedily take a percent sign, backtracking to the
percent-less alternative if the lookahead then fails.  `acc` is the match
so far; returns the full match text and the remaining input. -/
def tryPercent (acc rest : List Char) : Option (List Char × List Char) :=
  match rest with
  | [] => some (acc, [])
  | c :: r =>
    if c = '%' then
      if numLookaheadOk r then some (acc ++ [c], r)
      else if numLookaheadOk rest then some (acc, rest) else none
    else if numLookaheadOk rest then some (acc, rest) else none

/-- Tail of `(?:\.\d+)?` once a dot was seen: `ds` is the digit run after
the dot, tried longest first (greedy `\d+`), `after` the input following
it.  Fuel bounds the backtracking depth by `ds.length`. -/
def tryDecimalLensF : Nat → List Char → List Char → List Char → Option (List Char × List Char)
  | 0, _, _, _ => none
  | _ + 1, _, [], _ => none
  | fuel + 1, acc, ds, after =>
    match tryPercent (acc ++ '.' :: ds) after with
    | some res => some res
    | none => tryDecimalLensF fuel acc ds.dropLast (ds.getLastD '0' :: after)

def tryDecimalLens (acc ds after : List Char) : Option (List Char × List Char) :=
  tryDecimalLensF ds.length acc ds after

/-- `(?:\.\d+)?%?(?![A-Za-z])`. -/
def tryDecimal (acc rest : List Char) : Option (List Char × List Char) :=
  match rest with
  | [] => tryPercent acc rest
  | c :: r =>
    if c = '.' then
      match tryDecimalLens acc (digitSpan r).1 (digitSpan r).2 with
      | some res => some res
      | none => tryPercent acc rest
    else tryPercent acc rest

/-- One `,\d{3}` thousands group. -/
def commaGroup : List Char → Option (List Char × List Char)
  | c1 :: c2 :: c3 :: c4 :: r =>
    if c1 = ',' ∧ c2.isDigit = true ∧ c3.isDigit = true ∧ c4.isDigit = true then
      some ([c1, c2, c3, c4], r)
    else none
  | _ => none

/-- `(?:,\d{3})*` and the rest of the pattern: greedy repetition, dropping
trailing groups one by one on failure.  Fuel bounds the group count. -/
def tryCommasF : Nat → List Char → List Char → Option (List Char × List Char)
  | 0, acc, rest => tryDecimal acc rest
  | fuel + 1, acc, rest =>
    match commaGroup rest with
    | some (g, r) =>
      match tryCommasF fuel (acc ++ g) r with
      | some res => some res
      | none => tryDecimal acc rest
    | none => tryDecimal acc rest

def tryCommas (acc rest : List Char) : Option (List Char × List Char) :=
  tryCommasF rest.length acc rest

/-- `\d{1,3}` and the rest of the pattern: try `n` leading digits for
`n = 3, 2, 1` in that order (greedy). -/
def tryNumLen (sign rest : List Char) : Nat → Option (List Char × List Char)
  | 0 => none
  | n + 1 =>
    if (rest.take (n + 1)).length = n + 1 ∧ ((rest.take (n + 1)).all Char.isDigit) = true then
      match tryCommas (sign ++ rest.take (n + 1)) (rest.drop (n + 1)) with
      | some res => some res
      | none => tryNumLen sign rest n
    else tryNumLen sign rest n

/-- Attempt `_NUM_RE` at the current position; `prev` is the character just
before it, checked by the `(?<![A-Za-z])` lookbehind.  `-?` commits to the
sign when present (the signless alternative then needs a digit at `-`). -/
def matchNumAt (prev : Option Char) (rest : List Char) : Option (List Char × List Char) :=
  if (prev.elim false isAsciiLetter) = true then none
  else
    match rest with
    | [] => none
    | c :: r =>
      if c = '-' then
        match tryNumLen [c] r 3 with
        | some res => some res
        | none => tryNumLen [] rest 3
      else tryNumLen [] rest 3

/-- `re.findall` scan for `_NUM_RE`: left to right, non-overlapping,
resuming right after each match.  Fuel is an upper bound on the input
length (each step consumes at least one character). -/
def numScanF : Nat → Option Char → List Char → List (List Char)
  | 0, _, _ => []
  | fuel + 1, prev, rest =>
    match rest with
    | [] => []
    | c :: cs =>
      match matchNumAt prev (c :: cs) with
      | some (m, r) => m :: numScanF fuel m.getLast? r
      | none => numScanF fuel (some c) cs

def numScan (prev : Option Char) (rest : List Char) : List (List Char) :=
  numScanF rest.length prev rest

/-- `numbers_from_text` (guards.py): all `_NUM_RE` matches, in order,
duplicates retained. -/
def numbers_from_text (text : String) : List String :=
  (numScan none text.data).map String.mk

/-! ### `_SCORE_RE`

`\b(\d+)\s*[-–]\s*(\d+)\b`.  Both `\d+` runs are maximal (no shorter run
can ever satisfy the following dash or trailing `\b`), so no backtracking
search is needed here. -/

def scoreBoundaryOk : List Char → Bool
  | [] => true
  | c :: _ => !isWordC c

/-- Attempt `_SCORE_RE` at the current position; `prev` feeds the leading
`\b` (the first matched character is a digit, so the boundary holds iff
`prev` is absent or a non-word character). -/
def matchScoreAt (prev : Option Char) (rest : List Char) :
    Option ((List Char × List Char) × List Char) :=
  if (prev.elim false isWordC) = true then none
  else
    let a := (digitSpan rest).1
    let r1 := (digitSpan rest).2
    if a.isEmpty then none
    else
      match r1.dropWhile isSpaceC with
      | [] => none
      | c :: r3 =>
        if c = '-' ∨ c = '–' then
          let r4 := r3.dropWhile isSpaceC
          let b := (digitSpan r4).1
          let r5 := (digitSpan r4).2
          if b.isEmpty then none
          else if scoreBoundaryOk r5 then some ((a, b), r5) else none
        else none

/-- `re.findall` scan for `_SCORE_RE`. -/
def scoreScanF : Nat → Option Char → List Char → List (List Char × List Char)
  | 0, _, _ => []
  | fuel + 1, prev, rest =>
    match rest with
    | [] => []
    | c :: cs =>
      match matchScoreAt prev (c :: cs) with
      | some (ab, r) => ab :: scoreScanF fuel ab.2.getLast? r
      | none => scoreScanF fuel (some c) cs

def scoreScan (prev : Option Char) (rest : List Char) : List (List Char × List Char) :=
  scoreScanF rest.length prev rest

/-- `scorelines_from_text` (guards.py): scoreline digit pairs, in order. -/
def scorelines_from_text (text : String) : List (String × String) :=
  (scoreScan none text.data).map fun p => (String.mk p.1, String.mk p.2)

/-! ### Normalizer -/

/-- Strip every trailing occurrence of `c` (Python `str.rstrip`). -/
def rstripC (c : Char) (l : List Char) : List Char :=
  (l.reverse.dropWhile fun d => decide (d = c)).reverse

/-- `_normalize_number_token` (guards.py):
`tok.replace(",", "").rstrip("%")`. -/
def _normalize_number_token (tok : String) : String :=
  String.mk (rstripC '%' (tok.data.filter fun c => !decide (c = ',')))

/-- `raw.rstrip("%")` as used on the unnormalized token in the comparator. -/
def rstripPct (tok : String) : String :=
  String.mk (rstripC '%' tok.data)

/-! ### Python floats and `_variants` -/

/-- The result of a successful `float(str)`. -/
inductive PyFloat where
  | finite (q : ℚ) (neg0 : Bool)
  | inf (neg : Bool)
  | nan
deriving DecidableEq

def stripWs (l : List Char) : List Char :=
  ((l.dropWhile isSpaceC).reverse.dropWhile isSpaceC).reverse

def lowerC (c : Char) : Char :=
  if decide ('A' ≤ c) && decide (c ≤ 'Z') then Char.ofNat (c.toNat + 32) else c

def digitsToNat (l : List Char) : Nat :=
  l.foldl (fun n c => n * 10 + (c.toNat - '0'.toNat)) 0

/-- Exponent suffix of a float literal: `[+-]?\d+`, consuming all input. -/
def parseExp (l : List Char) : Option ℤ :=
  match l with
  | [] => none
  | c :: r =>
    if c = '+' then
      if r ≠ [] ∧ r.all Char.isDigit = true then some (digitsToNat r) else none
    else if c = '-' then
      if r ≠ [] ∧ r.all Char.isDigit = true then some (-(digitsToNat r : ℤ)) else none
    else if l.all Char.isDigit = true then some (digitsToNat l) else none

/-!
Rational arithmetic below is written with kernel-computable operations
(`mkRat`, `Rat.blt`, and products/differences formed as single fractions)
rather than the `ℚ` typeclass operations, so that concrete runs of the
verifier reduce definitionally; `Rat.blt a b` is the core strict-order
test (`a < b`), and `mkRat n d = n / d` in lowest terms.
-/

/-- `a * b` on `ℚ`, as a normalized fraction. -/
def ratMul (a b : ℚ) : ℚ := mkRat (a.num * b.num) (a.den * b.den)

/-- `a - b` on `ℚ`, as a normalized fraction. -/
def ratSub (a b : ℚ) : ℚ := mkRat (a.num * (b.den : ℤ) - b.num * (a.den : ℤ)) (a.den * b.den)

def pow10 (e : ℤ) : ℚ :=
  match e with
  | .ofNat n => mkRat (10 ^ n : ℕ) 1
  | .negSucc n => mkRat 1 (10 ^ (n + 1))

/-- Unsigned decimal float literal: digits with an optional fractional part
(at least one digit overall) and an optional exponent; the value
`ip + fp / 10^|fp|` is formed as a single fraction. -/
def parseDecimal (l : List Char) : Option ℚ :=
  let ip := (digitSpan l).1
  let r1 := (digitSpan l).2
  match r1 with
  | [] => if ip.isEmpty then none else some (mkRat (digitsToNat ip) 1)
  | c :: r2 =>
    if c = '.' then
      let fp := (digitSpan r2).1
      let r3 := (digitSpan r2).2
      if ip.isEmpty ∧ fp.isEmpty then none
      else
        let base : ℚ :=
          mkRat (digitsToNat ip * 10 ^ fp.length + digitsToNat fp : ℕ) (10 ^ fp.length)
        match r3 with
        | [] => some base
        | e :: r4 =>
          if e = 'e' ∨ e = 'E' then (parseExp r4).map fun ex => ratMul base (pow10 ex) else none
    else if c = 'e' ∨ c = 'E' then
      if ip.isEmpty then none
      else (parseExp r2).map fun ex => ratMul (mkRat (digitsToNat ip) 1) (pow10 ex)
    else none

/-- Decimal values at or above this convert to IEEE double infinity. -/
def dblOverflow : ℚ := mkRat (2 ^ 1024 - 2 ^ 970 : ℕ) 1

/-- CPython `float(str)`: strip whitespace, optional sign, then
`inf`/`infinity`/`nan` (case-insensitive) or a decimal literal; overflow
gives a signed infinity and the sign of a zero is kept. -/
def pyFloat? (s : String) : Option PyFloat :=
  let t := stripWs s.data
  let neg : Bool := match t with | c :: _ => decide (c = '-') | [] => false
  let u : List Char :=
    match t with
    | c :: r => if c = '-' ∨ c = '+' then r else t
    | [] => t
  let low := u.map lowerC
  if low = ['i', 'n', 'f'] ∨ low = ['i', 'n', 'f', 'i', 'n', 'i', 't', 'y'] then some (.inf neg)
  else if low = ['n', 'a', 'n'] then some .nan
  else
    match parseDecimal u with
    | none => none
    | some q =>
      if Rat.blt q dblOverflow then
        some (.finite (if neg then Rat.neg q else q) (neg && decide (q.num = 0)))
      else some (.inf neg)

/-- `⌊q⌋` computed on raw numerator/denominator (denominators are positive,
so Int floor division is exact). -/
def ratFloor (q : ℚ) : ℤ := Int.fdiv q.num (q.den : ℤ)

/-- Round to nearest integer, ties to even — Python's `round`. -/
def halfEvenZ (q : ℚ) : ℤ :=
  let f := ratFloor q
  let r := ratSub q (mkRat f 1)
  if Rat.blt r (mkRat 1 2) then f
  else if Rat.blt (mkRat 1 2) r then f + 1
  else if f % 2 = 0 then f else f + 1

/-- Python `str` of an int. -/
def intStr (n : ℤ) : String :=
  String.mk ((if n < 0 then ['-'] else []) ++ Nat.toDigits 10 n.natAbs)

def padZeros (k : Nat) (ds : List Char) : List Char :=
  List.replicate (k - ds.length) '0' ++ ds

/-- `f"{round(f, k):.{k}f}"`: round half-even at `k` fractional digits and
print exactly `k` of them; `srcNeg` is the IEEE sign of a zero result
(Python prints `-0.0`). -/
def formatFixed (srcNeg : Bool) (q : ℚ) (k : ℕ) : String :=
  let n := halfEvenZ (ratMul q (mkRat (10 ^ k : ℕ) 1))
  let neg : Bool := decide (n < 0) || (decide (n = 0) && srcNeg)
  let m := n.natAbs
  String.mk ((if neg then ['-'] else []) ++ Nat.toDigits 10 (m / 10 ^ k) ++
    '.' :: padZeros k (Nat.toDigits 10 (m % 10 ^ k)))

/-- `_variants` (guards.py): the input itself, `str(int(round(f)))`, the
one- and two-decimal renderings, and the trailing-zero-trimmed form; a
parse failure degrades to the singleton, while a nan or infinite parse
result makes Python's `round` raise, which the `try` does not cover. -/
def _variants (n : String) : PyRes (List String) :=
  match pyFloat? n with
  | none => .ok [n]
  | some .nan => .error .exn
  | some (.inf _) => .error .exn
  | some (.finite q neg0) =>
    let srcNeg := decide (q.num < 0) || neg0
    let trimmed := rstripC '.' (rstripC '0' n.data)
    .ok ([n, intStr (halfEvenZ q), formatFixed srcNeg q 1, formatFixed srcNeg q 2] ++
      (if n.data.contains '.' = true ∧ trimmed ≠ [] then [String.mk trimmed] else []))

/-! ### Fact index and comparator -/

/-- A facts-panel entry (`label`/`value`/`source`); the verifier reads only
`value`. -/
structure Fact where
  label : String
  value : String
  source : String
deriving DecidableEq

/-- Both halves of every scoreline of a text, in order:
`for a, b in scorelines_from_text(t): for part in (a, b)`. -/
def scoreParts (text : String) : List String :=
  (scorelines_from_text text).flatMap fun p => [p.1, p.2]

/-- Normalize each token and accumulate its variants (set-union modelled as
append; first raise wins, as in the Python loops). -/
def variantsOfParts : List String → PyRes (List String)
  | [] => .ok []
  | p :: rest =>
    match _variants (_normalize_number_token p) with
    | .error e => .error e
    | .ok vs =>
      match variantsOfParts rest with
      | .error e => .error e
      | .ok more => .ok (vs ++ more)

/-- One fact value's contribution to the index: scoreline halves first,
then standalone tokens. -/
def factContrib (v : String) : PyRes (List String) :=
  match variantsOfParts (scoreParts v) with
  | .error e => .error e
  | .ok a =>
    match variantsOfParts (numbers_from_text v) with
    | .error e => .error e
    | .ok b => .ok (a ++ b)

/-- `_index_fact_numbers` (guards.py): union of every fact value's
contributions. -/
def _index_fact_numbers : List Fact → PyRes (List String)
  | [] => .ok []
  | f :: rest =>
    match factContrib f.value with
    | .error e => .error e
    | .ok c =>
      match _index_fact_numbers rest with
      | .error e => .error e
      | .ok r => .ok (c ++ r)

/-- `_unique_preserve_order` (guards.py), with the `seen` set explicit. -/
def uniqueAux (seen : List String) : List String → List String
  | [] => []
  | x :: rest => if x ∈ seen then uniqueAux seen rest else x :: uniqueAux (x :: seen) rest

def _unique_preserve_order (items : List String) : List String :=
  uniqueAux [] items

/-- `ALLOW` (guards.py): minute markers and a rolling window of years. -/
def ALLOW : List String :=
  ["120", "90", "75", "60", "45", "30", "25", "20", "15", "10", "5", "3", "2", "1",
   "2019", "2020", "2021", "2022", "2023", "2024", "2025", "2026"]

/-- The scoreline-half pass of `assert_numbers_in_facts`: flag each half
whose normalization is not allow-listed and whose variants miss the index. -/
def flagParts (factIndex : List String) : List String → PyRes (List String)
  | [] => .ok []
  | part :: rest =>
    if _normalize_number_token part ∈ ALLOW then flagParts factIndex rest
    else
      match _variants (_normalize_number_token part) with
      | .error e => .error e
      | .ok vs =>
        match flagParts factIndex rest with
        | .error e => .error e
        | .ok more =>
          if vs.any fun x => decide (x ∈ factIndex) then .ok more else .ok (part :: more)

/-- The standalone-token pass: also skips raw tokens whose percent-stripped
form is allow-listed. -/
def flagTokens (factIndex : List String) : List String → PyRes (List String)
  | [] => .ok []
  | tok :: rest =>
    if _normalize_number_token tok ∈ ALLOW ∨ rstripPct tok ∈ ALLOW then flagTokens factIndex rest
    else
      match _variants (_normalize_number_token tok) with
      | .error e => .error e
      | .ok vs =>
        match flagTokens factIndex rest with
        | .error e => .error e
        | .ok more =>
          if vs.any fun x => decide (x ∈ factIndex) then .ok more else .ok (tok :: more)

/-- `assert_numbers_in_facts` (guards.py), the verifier's entry point.
`None` arguments model Python's `body or ""` / `facts or []` guards. -/
def assert_numbers_in_facts (body : Option String) (facts : Option (List Fact)) :
    PyRes (List String) :=
  match _index_fact_numbers (facts.getD []) with
  | .error e => .error e
  | .ok factIndex =>
    match flagParts factIndex (scoreParts (body.getD "")) with
    | .error e => .error e
    | .ok m1 =>
      match flagTokens factIndex (numbers_from_text (body.getD "")) with
      | .error e => .error e
      | .ok m2 => .ok (_unique_preserve_order (m1 ++ m2))

/-- The flagging predicate of the scoreline pass, as a pure test (used to
characterize `flagParts` on non-raising runs). -/
def partFlagged (factIndex : List String) (part : String) : Bool :=
  if _normalize_number_token part ∈ ALLOW then false
  else
    match _variants (_normalize_number_token part) with
    | .error _ => true
    | .ok vs => !(vs.any fun x => decide (x ∈ factIndex))

/-- The flagging predicate of the standalone-token pass. -/
def tokFlagged (factIndex : List String) (tok : String) : Bool :=
  if _normalize_number_token tok ∈ ALLOW ∨ rstripPct tok ∈ ALLOW then false
  else
    match _variants (_normalize_number_token tok) with
    | .error _ => true
    | .ok vs => !(vs.any fun x => decide (x ∈ factIndex))

/-! ## Basic properties of the matchers -/

theorem pyExn_eq (e : PyExn) : e = .exn := by cases e; rfl

theorem digitSpan_append (l : List Char) : (digitSpan l).1 ++ (digitSpan l).2 = l := by
  induction l with
  | nil => rfl
  | cons c cs ih =>
    by_cases h : c.isDigit = true
    · simp [digitSpan, h, ih]
    · simp [digitSpan, h]

theorem digitSpan_len (l : List Char) :
    (digitSpan l).1.length + (digitSpan l).2.length = l.length := by
  have h := congrArg List.length (digitSpan_append l)
  simpa [List.length_append] using h

theorem digitSpan_not_digit (h : c.isDigit = false) (l : List Char) :
    digitSpan (c :: l) = ([], c :: l) := by
  simp [digitSpan, h]

theorem mem_dropWhile {α : Type} (p : α → Bool) (l : List α) (x : α)
    (h : x ∈ l.dropWhile p) : x ∈ l := by
  induction l with
  | nil => simp at h
  | cons c cs ih =>
    by_cases hc : p c = true
    · simp only [List.dropWhile, hc] at h
      exact List.mem_cons_of_mem _ (ih h)
    · simp only [List.dropWhile, hc] at h
      simpa using h

theorem dropWhile_len {α : Type} (p : α → Bool) (l : List α) :
    (l.dropWhile p).length ≤ l.length := by
  induction l with
  | nil => simp
  | cons c cs ih =>
    by_cases hc : p c = true
    · simp only [List.dropWhile, hc]
      exact Nat.le_succ_of_le ih
    · simp [List.dropWhile, hc]

theorem tryPercent_len (acc rest m r : List Char) (h : tryPercent acc rest = some (m, r)) :
    r.length ≤ rest.length := by
  cases rest with
  | nil =>
    simp only [tryPercent] at h
    cases h
    simp
  | cons c cs =>
    simp only [tryPercent] at h
    split at h
    · split at h
      · cases h; simp
      · split at h
        · cases h; simp
        · cases h
    · split at h
      · cases h; simp
      · cases h

theorem tryDecimalLensF_len (fuel : Nat) :
    ∀ acc ds after m r, tryDecimalLensF fuel acc ds after = some (m, r) →
      r.length ≤ ds.length + after.length := by
  induction fuel with
  | zero => intro acc ds after m r h; simp [tryDecimalLensF] at h
  | succ fuel ih =>
    intro acc ds after m r h
    cases ds with
    | nil => simp [tryDecimalLensF] at h
    | cons d ds' =>
      simp only [tryDecimalLensF] at h
      cases hp : tryPercent (acc ++ '.' :: d :: ds') after with
      | some res =>
        rw [hp] at h
        cases h
        have := tryPercent_len _ _ _ _ hp
        omega
      | none =>
        rw [hp] at h
        have := ih _ _ _ _ _ h
        have hlen : ((d :: ds').dropLast).length = ds'.length := by
          simp [List.length_dropLast]
        simp only [List.length_cons] at this ⊢
        omega

theorem tryDecimal_len (acc rest m r : List Char) (h : tryDecimal acc rest = some (m, r)) :
    r.length ≤ rest.length := by
  cases rest with
  | nil => exact tryPercent_len _ _ _ _ h
  | cons c cs =>
    simp only [tryDecimal] at h
    split at h
    · cases hd : tryDecimalLens acc (digitSpan cs).1 (digitSpan cs).2 with
      | some res =>
        rw [hd] at h
        cases h
        have h1 := tryDecimalLensF_len _ _ _ _ _ _ hd
        have h2 := digitSpan_len cs
        simp only [List.length_cons]
        omega
      | none =>
        rw [hd] at h
        exact tryPercent_len _ _ _ _ h
    · exact tryPercent_len _ _ _ _ h

theorem commaGroup_len (rest g r : List Char) (h : commaGroup rest = some (g, r)) :
    rest.length = r.length + 4 := by
  match rest with
  | [] => simp [commaGroup] at h
  | [c1] => simp [commaGroup] at h
  | [c1, c2] => simp [commaGroup] at h
  | [c1, c2, c3] => simp [commaGroup] at h
  | c1 :: c2 :: c3 :: c4 :: rr =>
    simp only [commaGroup] at h
    split at h
    · cases h
      simp only [List.length_cons]
    · cases h

theorem tryCommasF_len (fuel : Nat) :
    ∀ acc rest m r, tryCommasF fuel acc rest = some (m, r) → r.length ≤ rest.length := by
  induction fuel with
  | zero => intro acc rest m r h; exact tryDecimal_len _ _ _ _ h
  | succ fuel ih =>
    intro acc rest m r h
    simp only [tryCommasF] at h
    split at h
    · rename_i g rr hg
      split at h
      · rename_i res hr
        cases h
        have h1 := ih _ _ _ _ hr
        have h2 := commaGroup_len _ _ _ hg
        omega
      · exact tryDecimal_len _ _ _ _ h
    · exact tryDecimal_len _ _ _ _ h

theorem tryNumLen_len :
    ∀ k sign rest m r, tryNumLen sign rest k = some (m, r) → r.length < rest.length := by
  intro k
  induction k with
  | zero => intro sign rest m r h; simp [tryNumLen] at h
  | succ n ih =>
    intro sign rest m r h
    simp only [tryNumLen] at h
    split at h
    · rename_i hcond
      cases hc : tryCommas (sign ++ rest.take (n + 1)) (rest.drop (n + 1)) with
      | some res =>
        rw [hc] at h
        cases h
        have h1 := tryCommasF_len _ _ _ _ _ hc
        have h2 : (rest.take (n + 1)).length = n + 1 := hcond.1
        have h3 : (rest.take (n + 1)).length ≤ rest.length := by
          simp [List.length_take]
        have h4 : (rest.drop (n + 1)).length = rest.length - (n + 1) := by
          simp [List.length_drop]
        omega
      | none =>
        rw [hc] at h
        exact ih _ _ _ _ h
    · exact ih _ _ _ _ h

theorem matchNumAt_len (prev : Option Char) (rest : List Char) (m r : List Char)
    (h : matchNumAt prev rest = some (m, r)) : r.length < rest.length := by
  simp only [matchNumAt] at h
  split at h
  · cases h
  · split at h
    · cases h
    · rename_i c cs
      split at h
      · split at h
        · rename_i res hn
          cases h
          have := tryNumLen_len _ _ _ _ _ hn
          simp only [List.length_cons]
          omega
        · exact tryNumLen_len _ _ _ _ _ h
      · exact tryNumLen_len _ _ _ _ _ h

theorem numScanF_congr :
    ∀ f₁ f₂ prev (rest : List Char), rest.length ≤ f₁ → rest.length ≤ f₂ →
      numScanF f₁ prev rest = numScanF f₂ prev rest := by
  intro f₁
  induction f₁ with
  | zero =>
    intro f₂ prev rest h₁ h₂
    have : rest = [] := List.length_eq_zero.mp (Nat.le_zero.mp h₁)
    subst this
    cases f₂ <;> rfl
  | succ f₁ ih =>
    intro f₂ prev rest h₁ h₂
    cases rest with
    | nil => cases f₂ <;> rfl
    | cons c cs =>
      cases f₂ with
      | zero => simp at h₂
      | succ f₂ =>
        simp only [numScanF]
        cases hm : matchNumAt prev (c :: cs) with
        | some mr =>
          obtain ⟨mv, rv⟩ := mr
          have hlen := matchNumAt_len _ _ _ _ hm
          simp only [List.length_cons] at h₁ h₂ hlen
          simp only [hm]
          exact congrArg (mv :: ·) (ih f₂ _ rv (by omega) (by omega))
        | none =>
          simp only [List.length_cons] at h₁ h₂
          simp only [hm]
          exact ih f₂ (some c) cs (by omega) (by omega)

theorem numScan_cons (prev : Option Char) (c : Char) (cs : List Char) :
    numScan prev (c :: cs) =
      match matchNumAt prev (c :: cs) with
      | some (m, r) => m :: numScan m.getLast? r
      | none => numScan (some c) cs := by
  cases hm : matchNumAt prev (c :: cs) with
  | some mr =>
    obtain ⟨mv, rv⟩ := mr
    have hlen := matchNumAt_len _ _ _ _ hm
    simp only [List.length_cons] at hlen
    show numScanF (cs.length + 1) prev (c :: cs) = _
    simp only [numScanF, hm]
    exact congrArg (mv :: ·) (numScanF_congr cs.length rv.length mv.getLast? rv (by omega) le_rfl)
  | none =>
    show numScanF (cs.length + 1) prev (c :: cs) = _
    simp only [numScanF, hm]
    rfl

theorem numScan_nil (prev : Option Char) : numScan prev [] = [] := rfl

theorem matchScoreAt_len (prev : Option Char) (rest : List Char) (ab : List Char × List Char)
    (r : List Char) (h : matchScoreAt prev rest = some (ab, r)) : r.length < rest.length := by
  simp only [matchScoreAt] at h
  split at h
  · cases h
  · split at h
    · cases h
    · rename_i hne
      split at h
      · cases h
      · rename_i c r3 hdw
        split at h
        · split at h
          · cases h
          · split at h
            · cases h
              have h1 : (digitSpan rest).1 ≠ [] := by
                intro hnil
                simp [hnil] at hne
              have h2 : 0 < (digitSpan rest).1.length := List.length_pos.mpr h1
              have h3 := digitSpan_len rest
              have h4 := dropWhile_len isSpaceC (digitSpan rest).2
              rw [hdw] at h4
              have h5 := dropWhile_len isSpaceC r3
              have h6 := digitSpan_len (r3.dropWhile isSpaceC)
              simp only [List.length_cons] at h4
              omega
            · cases h
        · cases h

theorem scoreScanF_congr :
    ∀ f₁ f₂ prev (rest : List Char), rest.length ≤ f₁ → rest.length ≤ f₂ →
      scoreScanF f₁ prev rest = scoreScanF f₂ prev rest := by
  intro f₁
  induction f₁ with
  | zero =>
    intro f₂ prev rest h₁ h₂
    have : rest = [] := List.length_eq_zero.mp (Nat.le_zero.mp h₁)
    subst this
    cases f₂ <;> rfl
  | succ f₁ ih =>
    intro f₂ prev rest h₁ h₂
    cases rest with
    | nil => cases f₂ <;> rfl
    | cons c cs =>
      cases f₂ with
      | zero => simp at h₂
      | succ f₂ =>
        simp only [scoreScanF]
        cases hm : matchScoreAt prev (c :: cs) with
        | some mr =>
          obtain ⟨ab, rv⟩ := mr
          have hlen := matchScoreAt_len _ _ _ _ hm
          simp only [List.length_cons] at h₁ h₂ hlen
          simp only [hm]
          exact congrArg (ab :: ·) (ih f₂ _ rv (by omega) (by omega))
        | none =>
          simp only [List.length_cons] at h₁ h₂
          simp only [hm]
          exact ih f₂ (some c) cs (by omega) (by omega)

theorem scoreScan_cons (prev : Option Char) (c : Char) (cs : List Char) :
    scoreScan prev (c :: cs) =
      match matchScoreAt prev (c :: cs) with
      | some (ab, r) => ab :: scoreScan ab.2.getLast? r
      | none => scoreScan (some c) cs := by
  cases hm : matchScoreAt prev (c :: cs) with
  | some mr =>
    obtain ⟨ab, rv⟩ := mr
    have hlen := matchScoreAt_len _ _ _ _ hm
    simp only [List.length_cons] at hlen
    show scoreScanF (cs.length + 1) prev (c :: cs) = _
    simp only [scoreScanF, hm]
    exact congrArg (ab :: ·) (scoreScanF_congr cs.length rv.length ab.2.getLast? rv (by omega) le_rfl)
  | none =>
    show scoreScanF (cs.length + 1) prev (c :: cs) = _
    simp only [scoreScanF, hm]
    rfl

/-! ## Scanning a text with a digit-free, dash-free lead

`assert_numbers_in_facts` on a body `"The stat was " ++ v` sees exactly the
tokens of `v`: no `_NUM_RE` or `_SCORE_RE` match can start inside the lead
(every match starts with a digit or a sign immediately followed by digits),
and the lead's final space satisfies both lookbehinds the way
start-of-string does. -/

theorem tryNumLen_not_digit (c : Char) (r : List Char) (hc : c.isDigit = false) :
    ∀ k sign, tryNumLen sign (c :: r) k = none := by
  intro k
  induction k with
  | zero => intro sign; rfl
  | succ n ih =>
    intro sign
    simp only [tryNumLen]
    rw [if_neg]
    · exact ih sign
    · rintro ⟨h1, h2⟩
      rw [List.take_succ_cons] at h2
      simp [hc] at h2

theorem matchNumAt_not_start (prev : Option Char) (c : Char) (r : List Char)
    (hc : c.isDigit = false) (hdash : ¬c = '-') : matchNumAt prev (c :: r) = none := by
  simp only [matchNumAt]
  split
  · rfl
  · exact tryNumLen_not_digit c r hc 3 []

theorem matchNumAt_flag (prev : Option Char) (hp : prev.elim false isAsciiLetter = false)
    (rest : List Char) : matchNumAt prev rest = matchNumAt none rest := by
  simp [matchNumAt, hp]

theorem numScan_flag (prev : Option Char) (hp : prev.elim false isAsciiLetter = false)
    (w : List Char) : numScan prev w = numScan none w := by
  cases w with
  | nil => rfl
  | cons c cs => rw [numScan_cons, numScan_cons, matchNumAt_flag prev hp]

theorem numScan_skip :
    ∀ (P : List Char) (prev : Option Char) (w : List Char),
      (∀ c ∈ P, c.isDigit = false ∧ ¬c = '-') →
      numScan prev (P ++ w) = numScan (P.foldl (fun _ c => some c) prev) w := by
  intro P
  induction P with
  | nil => intro prev w _; rfl
  | cons c P' ih =>
    intro prev w h
    have hc := h c (List.mem_cons_self _ _)
    rw [List.cons_append, numScan_cons, matchNumAt_not_start prev c _ hc.1 hc.2]
    show numScan (some c) (P' ++ w) = _
    rw [ih (some c) w fun d hd => h d (List.mem_cons_of_mem _ hd)]
    rfl

theorem matchScoreAt_not_digit (prev : Option Char) (c : Char) (r : List Char)
    (hc : c.isDigit = false) : matchScoreAt prev (c :: r) = none := by
  simp only [matchScoreAt]
  split
  · rfl
  · rw [digitSpan_not_digit hc]
    simp

theorem matchScoreAt_flag (prev : Option Char) (hp : prev.elim false isWordC = false)
    (rest : List Char) : matchScoreAt prev rest = matchScoreAt none rest := by
  simp [matchScoreAt, hp]

theorem scoreScan_flag (prev : Option Char) (hp : prev.elim false isWordC = false)
    (w : List Char) : scoreScan prev w = scoreScan none w := by
  cases w with
  | nil => rfl
  | cons c cs => rw [scoreScan_cons, scoreScan_cons, matchScoreAt_flag prev hp]

theorem scoreScan_skip :
    ∀ (P : List Char) (prev : Option Char) (w : List Char),
      (∀ c ∈ P, c.isDigit = false) →
      scoreScan prev (P ++ w) = scoreScan (P.foldl (fun _ c => some c) prev) w := by
  intro P
  induction P with
  | nil => intro prev w _; rfl
  | cons c P' ih =>
    intro prev w h
    have hc := h c (List.mem_cons_self _ _)
    rw [List.cons_append, scoreScan_cons, matchScoreAt_not_digit prev c _ hc]
    show scoreScan (some c) (P' ++ w) = _
    rw [ih (some c) w fun d hd => h d (List.mem_cons_of_mem _ hd)]
    rfl

theorem numbers_from_text_stat (v : String) :
    numbers_from_text ("The stat was " ++ v) = numbers_from_text v := by
  unfold numbers_from_text
  have h1 : ("The stat was " ++ v).data = "The stat was ".data ++ v.data := rfl
  rw [h1, numScan_skip "The stat was ".data none v.data (by decide)]
  show (numScan (some ' ') v.data).map String.mk = _
  rw [numScan_flag (some ' ') (by decide) v.data]

theorem scorelines_from_text_stat (v : String) :
    scorelines_from_text ("The stat was " ++ v) = scorelines_from_text v := by
  unfold scorelines_from_text
  have h1 : ("The stat was " ++ v).data = "The stat was ".data ++ v.data := rfl
  rw [h1, scoreScan_skip "The stat was ".data none v.data (by decide)]
  show (scoreScan (some ' ') v.data).map _ = _
  rw [scoreScan_flag (some ' ') (by decide) v.data]

theorem scoreParts_stat (v : String) :
    scoreParts ("The stat was " ++ v) = scoreParts v := by
  unfold scoreParts
  rw [scorelines_from_text_stat]

/-! ## `_unique_preserve_order`: membership, order, and interplay with
filtering.  The flagging passes are value-determined filters, so
deduplication commutes with them; this drives the order/monotonicity
claims. -/

theorem mem_of_mem_uniqueAux :
    ∀ (l seen : List String) (x : String), x ∈ uniqueAux seen l → x ∈ l := by
  intro l
  induction l with
  | nil => intro seen x h; simp [uniqueAux] at h
  | cons c cs ih =>
    intro seen x h
    simp only [uniqueAux] at h
    split at h
    · exact List.mem_cons_of_mem _ (ih _ _ h)
    · rcases List.mem_cons.mp h with h | h
      · exact h ▸ List.mem_cons_self _ _
      · exact List.mem_cons_of_mem _ (ih _ _ h)

theorem uniqueAux_congr :
    ∀ (l seen₁ seen₂ : List String), (∀ y ∈ l, (y ∈ seen₁ ↔ y ∈ seen₂)) →
      uniqueAux seen₁ l = uniqueAux seen₂ l := by
  intro l
  induction l with
  | nil => intro _ _ _; rfl
  | cons c cs ih =>
    intro s₁ s₂ h
    have hc := h c (List.mem_cons_self _ _)
    simp only [uniqueAux]
    by_cases h₁ : c ∈ s₁
    · rw [if_pos h₁, if_pos (hc.mp h₁)]
      exact ih _ _ fun y hy => h y (List.mem_cons_of_mem _ hy)
    · rw [if_neg h₁, if_neg fun h₂ => h₁ (hc.mpr h₂)]
      refine congrArg (c :: ·) (ih _ _ fun y hy => ?_)
      simp only [List.mem_cons]
      exact or_congr Iff.rfl (h y (List.mem_cons_of_mem _ hy))

theorem uniqueAux_cons_mem {c : String} {seen : List String} (h : c ∈ seen) (l : List String) :
    uniqueAux seen (c :: l) = uniqueAux seen l := by
  simp [uniqueAux, h]

theorem uniqueAux_cons_not_mem {c : String} {seen : List String} (h : c ∉ seen)
    (l : List String) : uniqueAux seen (c :: l) = c :: uniqueAux (c :: seen) l := by
  simp [uniqueAux, h]

theorem uniqueAux_append :
    ∀ (a b seen : List String),
      uniqueAux seen (a ++ b) = uniqueAux seen a ++ uniqueAux (a ++ seen) b := by
  intro a
  induction a with
  | nil => intro b seen; rfl
  | cons c a' ih =>
    intro b seen
    by_cases hc : c ∈ seen
    · rw [List.cons_append, uniqueAux_cons_mem hc, uniqueAux_cons_mem hc, ih]
      refine congrArg _ (uniqueAux_congr b _ _ fun y _ => ?_)
      simp only [List.mem_append, List.cons_append, List.mem_cons]
      constructor
      · intro hy
        rcases hy with hy | hy
        · exact Or.inr (Or.inl hy)
        · exact Or.inr (Or.inr hy)
      · rintro (rfl | hy | hy)
        · exact Or.inr hc
        · exact Or.inl hy
        · exact Or.inr hy
    · rw [List.cons_append, uniqueAux_cons_not_mem hc, uniqueAux_cons_not_mem hc, ih,
        List.cons_append]
      refine congrArg (c :: ·) (congrArg _ (uniqueAux_congr b _ _ fun y _ => ?_))
      simp only [List.mem_append, List.cons_append, List.mem_cons]
      constructor
      · rintro (hy | rfl | hy)
        · exact Or.inr (Or.inl hy)
        · exact Or.inl rfl
        · exact Or.inr (Or.inr hy)
      · rintro (rfl | hy | hy)
        · exact Or.inr (Or.inl rfl)
        · exact Or.inl hy
        · exact Or.inr (Or.inr hy)

theorem uniqueAux_filter :
    ∀ (l seen : List String) (q : String → Bool),
      uniqueAux seen (l.filter q) = (uniqueAux seen l).filter q := by
  intro l
  induction l with
  | nil => intro _ _; rfl
  | cons c cs ih =>
    intro seen q
    by_cases hq : q c = true
    · rw [List.filter_cons_of_pos hq]
      simp only [uniqueAux]
      by_cases hc : c ∈ seen
      · rw [if_pos hc, if_pos hc, ih]
      · rw [if_neg hc, if_neg hc, List.filter_cons_of_pos hq]
        exact congrArg (c :: ·) (ih _ _)
    · have hqf : q c = false := by revert hq; cases q c <;> simp
      rw [List.filter_cons_of_neg (by simp [hqf])]
      simp only [uniqueAux]
      by_cases hc : c ∈ seen
      · rw [if_pos hc, ih]
      · rw [if_neg hc, List.filter_cons_of_neg (by simp [hqf]), ← ih (c :: seen) q]
        refine uniqueAux_congr _ _ _ fun y hy => ?_
        have hyc : ¬y = c := by
          intro hyc
          have := List.of_mem_filter hy
          rw [hyc, hqf] at this
          cases this
        simp [List.mem_cons, hyc]

theorem uniqueAux_nodup_all :
    ∀ (l seen : List String), (uniqueAux seen l).Nodup ∧ ∀ x ∈ uniqueAux seen l, x ∉ seen := by
  intro l
  induction l with
  | nil => intro seen; exact ⟨List.nodup_nil, by simp [uniqueAux]⟩
  | cons c cs ih =>
    intro seen
    simp only [uniqueAux]
    by_cases hc : c ∈ seen
    · rw [if_pos hc]
      exact ih seen
    · rw [if_neg hc]
      obtain ⟨hnd, hnotin⟩ := ih (c :: seen)
      refine ⟨List.nodup_cons.mpr ⟨fun hmem => ?_, hnd⟩, ?_⟩
      · exact hnotin c hmem (List.mem_cons_self _ _)
      · intro x hx
        rcases List.mem_cons.mp hx with rfl | hx'
        · exact hc
        · exact fun hxs => hnotin x hx' (List.mem_cons_of_mem _ hxs)

theorem filter_sublist_mono {q p : String → Bool} (h : ∀ x, q x = true → p x = true) :
    ∀ l : List String, (l.filter q).Sublist (l.filter p) := by
  intro l
  induction l with
  | nil => simp
  | cons c cs ih =>
    by_cases hq : q c = true
    · rw [List.filter_cons_of_pos hq, List.filter_cons_of_pos (h c hq)]
      exact ih.cons₂ c
    · rw [List.filter_cons_of_neg hq]
      by_cases hp : p c = true
      · rw [List.filter_cons_of_pos hp]
        exact ih.cons c
      · rw [List.filter_cons_of_neg hp]
        exact ih

/-! ## Characterizing the flagging passes on non-raising runs -/

theorem flagParts_ok_eq (I : List String) :
    ∀ (ps m : List String), flagParts I ps = .ok m → m = ps.filter (partFlagged I) := by
  intro ps
  induction ps with
  | nil => intro m h; cases h; rfl
  | cons p rest ih =>
    intro m h
    simp only [flagParts] at h
    split at h
    · rename_i hallow
      have hpf : partFlagged I p = false := by simp [partFlagged, hallow]
      rw [List.filter_cons_of_neg (by simp [hpf])]
      exact ih m h
    · rename_i hallow
      split at h
      · cases h
      · rename_i vs hv
        split at h
        · cases h
        · rename_i more hmore
          split at h
          · rename_i hany
            cases h
            have hpf : partFlagged I p = false := by
              simp only [partFlagged]
              rw [if_neg hallow]
              simp [hv, hany]
            rw [List.filter_cons_of_neg (by simp [hpf])]
            exact ih _ hmore
          · rename_i hany
            cases h
            have hpf : partFlagged I p = true := by
              simp only [partFlagged]
              rw [if_neg hallow]
              simp only [hv]
              simp only [Bool.not_eq_true] at hany
              simp [hany]
            rw [List.filter_cons_of_pos hpf]
            exact congrArg (p :: ·) (ih _ hmore)

theorem flagTokens_ok_eq (I : List String) :
    ∀ (ts m : List String), flagTokens I ts = .ok m → m = ts.filter (tokFlagged I) := by
  intro ts
  induction ts with
  | nil => intro m h; cases h; rfl
  | cons t rest ih =>
    intro m h
    simp only [flagTokens] at h
    split at h
    · rename_i hallow
      have hpf : tokFlagged I t = false := by simp [tokFlagged, hallow]
      rw [List.filter_cons_of_neg (by simp [hpf])]
      exact ih m h
    · rename_i hallow
      split at h
      · cases h
      · rename_i vs hv
        split at h
        · cases h
        · rename_i more hmore
          split at h
          · rename_i hany
            cases h
            have hpf : tokFlagged I t = false := by
              simp only [tokFlagged]
              rw [if_neg hallow]
              simp [hv, hany]
            rw [List.filter_cons_of_neg (by simp [hpf])]
            exact ih _ hmore
          · rename_i hany
            cases h
            have hpf : tokFlagged I t = true := by
              simp only [tokFlagged]
              rw [if_neg hallow]
              simp only [hv]
              simp only [Bool.not_eq_true] at hany
              simp [hany]
            rw [List.filter_cons_of_pos hpf]
            exact congrArg (t :: ·) (ih _ hmore)

theorem flagParts_ok_all (I : List String) :
    ∀ (ps m : List String), flagParts I ps = .ok m →
      ∀ J, flagParts J ps = .ok (ps.filter (partFlagged J)) := by
  intro ps
  induction ps with
  | nil => intro m _ J; rfl
  | cons p rest ih =>
    intro m h J
    simp only [flagParts] at h
    split at h
    · rename_i hallow
      have hpf : partFlagged J p = false := by simp [partFlagged, hallow]
      simp only [flagParts]
      rw [if_pos hallow, ih m h J, List.filter_cons_of_neg (by simp [hpf])]
    · rename_i hallow
      split at h
      · cases h
      · rename_i vs hv
        split at h
        · cases h
        · rename_i more hmore
          simp only [flagParts]
          rw [if_neg hallow]
          simp only [hv, ih _ hmore J]
          by_cases hany : (vs.any fun x => decide (x ∈ J)) = true
          · rw [if_pos hany]
            have hpf : partFlagged J p = false := by
              simp only [partFlagged]
              rw [if_neg hallow]
              simp [hv, hany]
            rw [List.filter_cons_of_neg (by simp [hpf])]
          · rw [if_neg hany]
            have hpf : partFlagged J p = true := by
              simp only [partFlagged]
              rw [if_neg hallow]
              simp only [hv]
              simp only [Bool.not_eq_true] at hany
              simp [hany]
            rw [List.filter_cons_of_pos hpf]

theorem flagTokens_ok_all (I : List String) :
    ∀ (ts m : List String), flagTokens I ts = .ok m →
      ∀ J, flagTokens J ts = .ok (ts.filter (tokFlagged J)) := by
  intro ts
  induction ts with
  | nil => intro m _ J; rfl
  | cons t rest ih =>
    intro m h J
    simp only [flagTokens] at h
    split at h
    · rename_i hallow
      have hpf : tokFlagged J t = false := by simp [tokFlagged, hallow]
      simp only [flagTokens]
      rw [if_pos hallow, ih m h J, List.filter_cons_of_neg (by simp [hpf])]
    · rename_i hallow
      split at h
      · cases h
      · rename_i vs hv
        split at h
        · cases h
        · rename_i more hmore
          simp only [flagTokens]
          rw [if_neg hallow]
          simp only [hv, ih _ hmore J]
          by_cases hany : (vs.any fun x => decide (x ∈ J)) = true
          · rw [if_pos hany]
            have hpf : tokFlagged J t = false := by
              simp only [tokFlagged]
              rw [if_neg hallow]
              simp [hv, hany]
            rw [List.filter_cons_of_neg (by simp [hpf])]
          · rw [if_neg hany]
            have hpf : tokFlagged J t = true := by
              simp only [tokFlagged]
              rw [if_neg hallow]
              simp only [hv]
              simp only [Bool.not_eq_true] at hany
              simp [hany]
            rw [List.filter_cons_of_pos hpf]

theorem any_mem_congr {I₁ I₂ : List String} (h : ∀ x, x ∈ I₁ ↔ x ∈ I₂) (vs : List String) :
    (vs.any fun x => decide (x ∈ I₁)) = (vs.any fun x => decide (x ∈ I₂)) := by
  induction vs with
  | nil => rfl
  | cons v vs ih =>
    simp only [List.any_cons, ih, decide_eq_decide.mpr (h v)]

theorem flagParts_congr {I₁ I₂ : List String} (h : ∀ x, x ∈ I₁ ↔ x ∈ I₂) :
    ∀ ps, flagParts I₁ ps = flagParts I₂ ps := by
  intro ps
  induction ps with
  | nil => rfl
  | cons p rest ih =>
    simp only [flagParts, ih, any_mem_congr h]

theorem flagTokens_congr {I₁ I₂ : List String} (h : ∀ x, x ∈ I₁ ↔ x ∈ I₂) :
    ∀ ts, flagTokens I₁ ts = flagTokens I₂ ts := by
  intro ts
  induction ts with
  | nil => rfl
  | cons t rest ih =>
    simp only [flagTokens, ih, any_mem_congr h]

/-! ## The variant sets and the fact index -/

theorem self_mem_variants (n : String) (vs : List String) (h : _variants n = .ok vs) :
    n ∈ vs := by
  simp only [_variants] at h
  split at h
  · cases h
    exact List.mem_cons_self _ _
  · cases h
  · cases h
  · cases h
    exact List.mem_append_left _ (List.mem_cons_self _ _)

theorem variantsOfParts_mem :
    ∀ (ps a : List String), variantsOfParts ps = .ok a →
      ∀ p ∈ ps, ∃ vs, _variants (_normalize_number_token p) = .ok vs ∧ ∀ x ∈ vs, x ∈ a := by
  intro ps
  induction ps with
  | nil => intro a _ p hp; simp at hp
  | cons q rest ih =>
    intro a h p hp
    simp only [variantsOfParts] at h
    split at h
    · cases h
    · rename_i vs hv
      split at h
      · cases h
      · rename_i more hmore
        cases h
        rcases List.mem_cons.mp hp with rfl | hp'
        · exact ⟨vs, hv, fun x hx => List.mem_append_left _ hx⟩
        · obtain ⟨vs', hv', hsub⟩ := ih more hmore p hp'
          exact ⟨vs', hv', fun x hx => List.mem_append_right _ (hsub x hx)⟩

theorem factContrib_ok (v : String) (c : List String) (h : factContrib v = .ok c) :
    ∃ a b, variantsOfParts (scoreParts v) = .ok a ∧
      variantsOfParts (numbers_from_text v) = .ok b ∧ c = a ++ b := by
  simp only [factContrib] at h
  split at h
  · cases h
  · rename_i a ha
    split at h
    · cases h
    · rename_i b hb
      cases h
      exact ⟨a, b, ha, hb, rfl⟩

theorem index_contrib :
    ∀ (facts : List Fact) (I : List String), _index_fact_numbers facts = .ok I →
      ∀ f ∈ facts, ∃ c, factContrib f.value = .ok c ∧ ∀ x ∈ c, x ∈ I := by
  intro facts
  induction facts with
  | nil => intro I _ f hf; simp at hf
  | cons g rest ih =>
    intro I h f hf
    simp only [_index_fact_numbers] at h
    split at h
    · cases h
    · rename_i c hc
      split at h
      · cases h
      · rename_i r hr
        cases h
        rcases List.mem_cons.mp hf with rfl | hf'
        · exact ⟨c, hc, fun x hx => List.mem_append_left _ hx⟩
        · obtain ⟨c', hc', hsub⟩ := ih r hr f hf'
          exact ⟨c', hc', fun x hx => List.mem_append_right _ (hsub x hx)⟩

theorem index_error_iff :
    ∀ facts : List Fact, _index_fact_numbers facts = .error .exn ↔
      ∃ f ∈ facts, factContrib f.value = .error .exn := by
  intro facts
  induction facts with
  | nil => simp [_index_fact_numbers]
  | cons g rest ih =>
    simp only [_index_fact_numbers]
    constructor
    · intro h
      split at h
      · rename_i e hc
        exact ⟨g, List.mem_cons_self _ _, by rw [hc, pyExn_eq e]⟩
      · rename_i c hc
        split at h
        · rename_i e hr
          obtain ⟨f, hf, hferr⟩ := ih.mp (by rw [hr, pyExn_eq e])
          exact ⟨f, List.mem_cons_of_mem _ hf, hferr⟩
        · cases h
    · rintro ⟨f, hf, hferr⟩
      rcases List.mem_cons.mp hf with rfl | hf'
      · simp only [hferr]
      · cases hc : factContrib g.value with
        | error e => simp [pyExn_eq e]
        | ok c =>
          have hrec := ih.mpr ⟨f, hf', hferr⟩
          simp [hrec]

theorem index_ok_mem :
    ∀ (facts : List Fact) (I : List String), _index_fact_numbers facts = .ok I →
      ∀ x, x ∈ I ↔ ∃ f ∈ facts, ∃ c, factContrib f.value = .ok c ∧ x ∈ c := by
  intro facts
  induction facts with
  | nil =>
    intro I h x
    cases h
    simp
  | cons g rest ih =>
    intro I h x
    simp only [_index_fact_numbers] at h
    split at h
    · cases h
    · rename_i c hc
      split at h
      · cases h
      · rename_i r hr
        cases h
        rw [List.mem_append, ih r hr x]
        constructor
        · rintro (hx | ⟨f, hf, c', hc', hx⟩)
          · exact ⟨g, List.mem_cons_self _ _, c, hc, hx⟩
          · exact ⟨f, List.mem_cons_of_mem _ hf, c', hc', hx⟩
        · rintro ⟨f, hf, c', hc', hx⟩
          rcases List.mem_cons.mp hf with rfl | hf'
          · rw [hc] at hc'
            cases hc'
            exact Or.inl hx
          · exact Or.inr ⟨f, hf', c', hc', hx⟩

theorem index_append :
    ∀ (F : List Fact) (G : List Fact) (I : List String),
      _index_fact_numbers (F ++ G) = .ok I →
      ∃ IF IG, _index_fact_numbers F = .ok IF ∧ _index_fact_numbers G = .ok IG ∧ I = IF ++ IG := by
  intro F
  induction F with
  | nil => intro G I h; exact ⟨[], I, rfl, h, rfl⟩
  | cons g F' ih =>
    intro G I h
    rw [List.cons_append] at h
    simp only [_index_fact_numbers] at h ⊢
    split at h
    · cases h
    · rename_i c hc
      split at h
      · cases h
      · rename_i r hr
        cases h
        obtain ⟨IF, IG, h1, h2, h3⟩ := ih G r hr
        refine ⟨c ++ IF, IG, ?_, h2, by rw [h3, List.append_assoc]⟩
        simp only [hc, h1]

theorem exists_value_congr {F₁ F₂ : List Fact}
    (h : ∀ s, (∃ f ∈ F₁, f.value = s) ↔ (∃ f ∈ F₂, f.value = s)) (P : String → Prop) :
    (∃ f ∈ F₁, P f.value) ↔ ∃ f ∈ F₂, P f.value := by
  constructor
  · rintro ⟨f, hf, hP⟩
    obtain ⟨g, hg, hgv⟩ := (h f.value).mp ⟨f, hf, rfl⟩
    exact ⟨g, hg, by rw [hgv]; exact hP⟩
  · rintro ⟨f, hf, hP⟩
    obtain ⟨g, hg, hgv⟩ := (h f.value).mpr ⟨f, hf, rfl⟩
    exact ⟨g, hg, by rw [hgv]; exact hP⟩

/-! ## Destructuring the comparator -/

theorem assert_ok_elim {body : Option String} {facts : Option (List Fact)} {l : List String}
    (h : assert_numbers_in_facts body facts = .ok l) :
    ∃ I m1 m2, _index_fact_numbers (facts.getD []) = .ok I ∧
      flagParts I (scoreParts (body.getD "")) = .ok m1 ∧
      flagTokens I (numbers_from_text (body.getD "")) = .ok m2 ∧
      l = _unique_preserve_order (m1 ++ m2) := by
  simp only [assert_numbers_in_facts] at h
  split at h
  · cases h
  · rename_i I hI
    split at h
    · cases h
    · rename_i m1 h1
      split at h
      · cases h
      · rename_i m2 h2
        cases h
        exact ⟨I, m1, m2, hI, h1, h2, rfl⟩

theorem assert_ok_build {body : Option String} {facts : Option (List Fact)}
    {I m1 m2 : List String} (hI : _index_fact_numbers (facts.getD []) = .ok I)
    (h1 : flagParts I (scoreParts (body.getD "")) = .ok m1)
    (h2 : flagTokens I (numbers_from_text (body.getD "")) = .ok m2) :
    assert_numbers_in_facts body facts = .ok (_unique_preserve_order (m1 ++ m2)) := by
  simp only [assert_numbers_in_facts, hI, h1, h2]

theorem assert_error_build (body : Option String) (facts : Option (List Fact))
    (hI : _index_fact_numbers (facts.getD []) = .error .exn) :
    assert_numbers_in_facts body facts = .error .exn := by
  simp only [assert_numbers_in_facts, hI]

/-! ## The flagging predicates against a grounding index -/

theorem partFlagged_false_of_hit {I : List String} {p : String} {vs : List String}
    (hv : _variants (_normalize_number_token p) = .ok vs) {x : String} (hx : x ∈ vs)
    (hxI : x ∈ I) : partFlagged I p = false := by
  simp only [partFlagged]
  split
  · rfl
  · simp only [hv]
    have hany : (vs.any fun y => decide (y ∈ I)) = true :=
      List.any_eq_true.mpr ⟨x, hx, by simp [hxI]⟩
    simp [hany]

theorem tokFlagged_false_of_hit {I : List String} {t : String} {vs : List String}
    (hv : _variants (_normalize_number_token t) = .ok vs) {x : String} (hx : x ∈ vs)
    (hxI : x ∈ I) : tokFlagged I t = false := by
  simp only [tokFlagged]
  split
  · rfl
  · simp only [hv]
    have hany : (vs.any fun y => decide (y ∈ I)) = true :=
      List.any_eq_true.mpr ⟨x, hx, by simp [hxI]⟩
    simp [hany]

theorem partFlagged_anti {I J : List String} (hsub : ∀ x, x ∈ J → x ∈ I) (p : String)
    (h : partFlagged I p = true) : partFlagged J p = true := by
  simp only [partFlagged] at h ⊢
  by_cases hallow : _normalize_number_token p ∈ ALLOW
  · rw [if_pos hallow] at h
    cases h
  · rw [if_neg hallow] at h ⊢
    cases hv : _variants (_normalize_number_token p) with
    | error e => simp [hv]
    | ok vs =>
      simp only [hv] at h ⊢
      cases hAJ : (vs.any fun x => decide (x ∈ J)) with
      | false => rfl
      | true =>
        exfalso
        obtain ⟨x, hx, hdec⟩ := List.any_eq_true.mp hAJ
        have hxI : x ∈ I := hsub x (by simpa using hdec)
        have hAI : (vs.any fun x => decide (x ∈ I)) = true :=
          List.any_eq_true.mpr ⟨x, hx, by simp [hxI]⟩
        rw [hAI] at h
        cases h

theorem tokFlagged_anti {I J : List String} (hsub : ∀ x, x ∈ J → x ∈ I) (t : String)
    (h : tokFlagged I t = true) : tokFlagged J t = true := by
  simp only [tokFlagged] at h ⊢
  by_cases hallow : _normalize_number_token t ∈ ALLOW ∨ rstripPct t ∈ ALLOW
  · rw [if_pos hallow] at h
    cases h
  · rw [if_neg hallow] at h ⊢
    cases hv : _variants (_normalize_number_token t) with
    | error e => simp [hv]
    | ok vs =>
      simp only [hv] at h ⊢
      cases hAJ : (vs.any fun x => decide (x ∈ J)) with
      | false => rfl
      | true =>
        exfalso
        obtain ⟨x, hx, hdec⟩ := List.any_eq_true.mp hAJ
        have hxI : x ∈ I := hsub x (by simpa using hdec)
        have hAI : (vs.any fun x => decide (x ∈ I)) = true :=
          List.any_eq_true.mpr ⟨x, hx, by simp [hxI]⟩
        rw [hAI] at h
        cases h

theorem tok_imp_part {I : List String} (t : String) (h : tokFlagged I t = true) :
    partFlagged I t = true := by
  simp only [tokFlagged] at h
  simp only [partFlagged]
  by_cases hallow : _normalize_number_token t ∈ ALLOW ∨ rstripPct t ∈ ALLOW
  · rw [if_pos hallow] at h
    cases h
  · rw [if_neg hallow] at h
    rw [if_neg fun hmem => hallow (Or.inl hmem)]
    exact h

/-! ## The dedup-filter comparison behind monotonicity in facts -/

theorem unique_filter_sub (parts toks : List String) (q1 q2 p1 p2 : String → Bool)
    (hq21 : ∀ x, q2 x = true → q1 x = true)
    (hqp1 : ∀ x, q1 x = true → p1 x = true)
    (hqp2 : ∀ x, q2 x = true → p2 x = true) :
    (_unique_preserve_order (parts.filter q1 ++ toks.filter q2)).Sublist
      (_unique_preserve_order (parts.filter p1 ++ toks.filter p2)) := by
  unfold _unique_preserve_order
  rw [uniqueAux_append, uniqueAux_append]
  have hL2 : uniqueAux (parts.filter q1 ++ []) (toks.filter q2)
      = uniqueAux (parts.filter p1 ++ []) (toks.filter q2) := by
    apply uniqueAux_congr
    intro y hy
    have hq2y : q2 y = true := List.of_mem_filter hy
    have hq1y := hq21 y hq2y
    have hp1y := hqp1 y hq1y
    simp only [List.append_nil, List.mem_filter]
    constructor
    · rintro ⟨hyp, _⟩
      exact ⟨hyp, hp1y⟩
    · rintro ⟨hyp, _⟩
      exact ⟨hyp, hq1y⟩
  rw [hL2, uniqueAux_filter parts [] q1, uniqueAux_filter parts [] p1,
    uniqueAux_filter toks _ q2, uniqueAux_filter toks _ p2]
  exact List.Sublist.append (filter_sublist_mono hqp1 _) (filter_sublist_mono hqp2 _)

/-! ## Idempotence machinery for the normalizer -/

theorem dropWhile_dropWhile {α : Type} (p : α → Bool) (l : List α) :
    (l.dropWhile p).dropWhile p = l.dropWhile p := by
  induction l with
  | nil => rfl
  | cons c cs ih =>
    by_cases h : p c = true
    · simp [List.dropWhile_cons, h, ih]
    · simp [List.dropWhile_cons, h]

theorem rstripC_rstripC (c : Char) (l : List Char) : rstripC c (rstripC c l) = rstripC c l := by
  unfold rstripC
  rw [List.reverse_reverse, dropWhile_dropWhile]

theorem mem_rstripC {x c : Char} {l : List Char} (h : x ∈ rstripC c l) : x ∈ l := by
  unfold rstripC at h
  rw [List.mem_reverse] at h
  exact List.mem_reverse.mp (mem_dropWhile _ _ _ h)

theorem normalize_idem (s : String) :
    _normalize_number_token (_normalize_number_token s) = _normalize_number_token s := by
  unfold _normalize_number_token
  show String.mk (rstripC '%'
      ((rstripC '%' (s.data.filter fun c => !decide (c = ','))).filter
        fun c => !decide (c = ','))) = _
  have hfl : (rstripC '%' (s.data.filter fun c => !decide (c = ','))).filter
      (fun c => !decide (c = ',')) = rstripC '%' (s.data.filter fun c => !decide (c = ',')) := by
    apply List.filter_eq_self.mpr
    intro a ha
    have h2 := mem_rstripC ha
    have h3 := List.of_mem_filter h2
    exact h3
  rw [hfl, rstripC_rstripC]

/-! ## The claims -/

/-- A 309-digit numeral: its value exceeds the IEEE double range, so
`float` returns infinity and Python's `round` inside `_variants` raises. -/
def hugeScoreline : String := String.mk (List.replicate 309 '9' ++ ['-', '1'])

/-- C1 (counterexample): with facts `[{value := "3-1"}]` and body `"2-0"`,
the result is `["0", "-0"]`, not the empty list the claim predicts: `"0"`
is absent from the allow-list (which starts at `"1"`), so the scoreline
half `"0"` is flagged, and the plain-number pass flags `"-0"` as well. -/
theorem claim1_counterexample :
    assert_numbers_in_facts (some "2-0") (some [⟨"score", "3-1", "stats-db"⟩]) =
      .ok ["0", "-0"] ∧ (["0", "-0"] : List String) ≠ [] :=
  ⟨rfl, by simp⟩

/-- C1 (amended): a fact value `"3-1"` does not ground an unrelated
scoreline: for body `"2-0"` the half `"2"` is skipped via the allow-list
but `"0"` is flagged (it is not an allow-listed minute marker) and the
plain pass flags `"-0"`, giving `["0", "-0"]`; for body `"7-4"` both
`"7"` and `"4"` are flagged as ungrounded (and the plain pass adds
`"-4"`), giving `["7", "4", "-4"]`. -/
theorem claim1_theorem :
    assert_numbers_in_facts (some "2-0") (some [⟨"score", "3-1", "stats-db"⟩]) =
      .ok ["0", "-0"] ∧
    assert_numbers_in_facts (some "7-4") (some [⟨"score", "3-1", "stats-db"⟩]) =
      .ok ["7", "4", "-4"] :=
  ⟨rfl, rfl⟩

/-- C2 (counterexample): the plain-number pass applied to the scoreline
text `"3-1"` does capture a component digit: the left component `"3"` is
among its matches (the full match list is `["3", "-1"]`). -/
theorem claim2_counterexample :
    "3" ∈ numbers_from_text "3-1" := by
  rw [show numbers_from_text "3-1" = ["3", "-1"] from rfl]
  exact List.mem_cons_self _ _

/-- C2 (amended): on a scoreline `"3-1"` the plain-number regex captures
the left digit as `"3"` and the hyphen together with the right digit as
the negative number `"-1"` (the adjacency rule only prevents re-capturing
the right digit as a bare positive number); hence a fact value `"3-1"`
contributes to the index through both passes — the scoreline pass yields
the variants of `"3"` and `"1"`, and the plain pass additionally yields
the variants of `"-1"`. -/
theorem claim2_theorem :
    numbers_from_text "3-1" = ["3", "-1"] ∧
    _index_fact_numbers [⟨"score", "3-1", "db"⟩] =
      .ok ["3", "3", "3.0", "3.00", "1", "1", "1.0", "1.00",
           "3", "3", "3.0", "3.00", "-1", "-1", "-1.0", "-1.00"] :=
  ⟨rfl, rfl⟩

/-- C3 (code evaluated at the failing inputs): `_variants` raises instead
of returning a set when the token parses to a non-finite float — Python's
`round` raises `ValueError` on nan and `OverflowError` on infinity, and
the `try` block only covers the `float` call. -/
theorem claim3_theorem :
    _variants "nan" = .error .exn ∧ _variants "inf" = .error .exn :=
  ⟨rfl, rfl⟩

/-- C4 (counterexample): `find_ungrounded` can raise on a plain string
body: a scoreline whose left run has 309 digits parses to an infinite
float, and `_variants` then raises inside the comparator. -/
theorem claim4_counterexample :
    assert_numbers_in_facts (some hugeScoreline) (some []) = .error .exn :=
  rfl

/-- C4 (amended): the `None`-tolerance part of the claim holds — a `None`
body behaves as `""`, `None` facts behave as `[]`, and
`find_ungrounded(None, None)` returns the empty list — but the function is
not raise-free on all string bodies (see the counterexample). -/
theorem claim4_theorem :
    (∀ facts, assert_numbers_in_facts none facts = assert_numbers_in_facts (some "") facts) ∧
    (∀ body, assert_numbers_in_facts body none = assert_numbers_in_facts body (some [])) ∧
    assert_numbers_in_facts none none = .ok [] :=
  ⟨fun _ => rfl, fun _ => rfl, rfl⟩

/-- C5 (amended): the grounded round-trip holds on every run that returns
normally: if some fact's value is `v`, then whenever
`find_ungrounded("The stat was " ++ v, facts)` returns a list at all, that
list is empty.  (For values whose numerals overflow the float range the
call raises instead of returning — see the counterexample.) -/
theorem claim5_theorem (v : String) (facts : List Fact) (l : List String)
    (hmem : ∃ f ∈ facts, f.value = v)
    (h : assert_numbers_in_facts (some ("The stat was " ++ v)) (some facts) = .ok l) :
    l = [] := by
  obtain ⟨f₀, hf₀, hv₀⟩ := hmem
  obtain ⟨I, m1, m2, hI, h1, h2, hl⟩ := assert_ok_elim h
  rw [show ((some facts : Option (List Fact)).getD []) = facts from rfl] at hI
  rw [show ((some ("The stat was " ++ v) : Option String).getD "") = "The stat was " ++ v
      from rfl, scoreParts_stat] at h1
  rw [show ((some ("The stat was " ++ v) : Option String).getD "") = "The stat was " ++ v
      from rfl, numbers_from_text_stat] at h2
  obtain ⟨c, hc, hcI⟩ := index_contrib facts I hI f₀ hf₀
  rw [hv₀] at hc
  obtain ⟨a, b, ha, hb, hab⟩ := factContrib_ok v c hc
  subst hab
  have hm1 : m1 = [] := by
    rw [flagParts_ok_eq I _ _ h1, List.filter_eq_nil_iff]
    intro p hp
    obtain ⟨vs, hvs, hvsub⟩ := variantsOfParts_mem _ _ ha p hp
    have hnI : _normalize_number_token p ∈ I :=
      hcI _ (List.mem_append_left _ (hvsub _ (self_mem_variants _ _ hvs)))
    have hflag := partFlagged_false_of_hit hvs (self_mem_variants _ _ hvs) hnI
    simp [hflag]
  have hm2 : m2 = [] := by
    rw [flagTokens_ok_eq I _ _ h2, List.filter_eq_nil_iff]
    intro t ht
    obtain ⟨vs, hvs, hvsub⟩ := variantsOfParts_mem _ _ hb t ht
    have hnI : _normalize_number_token t ∈ I :=
      hcI _ (List.mem_append_right _ (hvsub _ (self_mem_variants _ _ hvs)))
    have hflag := tokFlagged_false_of_hit hvs (self_mem_variants _ _ hvs) hnI
    simp [hflag]
  rw [hl, hm1, hm2]
  rfl

/-- C5 (counterexample): the round-trip as stated fails for a fact value
containing a 309-digit numeral — the call raises (models Python's
`OverflowError` from `round(inf)`) instead of returning the empty list. -/
theorem claim5_counterexample :
    (Fact.mk "club record" hugeScoreline "db").value = hugeScoreline ∧
    assert_numbers_in_facts (some ("The stat was " ++ hugeScoreline))
      (some [Fact.mk "club record" hugeScoreline "db"]) = .error .exn :=
  ⟨rfl, rfl⟩

theorem claim5_witness :
    (Fact.mk "score" "3-1" "db").value = "3-1" ∧ ([] : List String) = [] :=
  ⟨rfl, claim5_theorem "3-1" [Fact.mk "score" "3-1" "db"] []
    ⟨Fact.mk "score" "3-1" "db", List.mem_cons_self _ _, rfl⟩ rfl⟩

/-- C6: whenever the fact list contains a fact whose value is `"1.8"`, no
run of the verifier that returns normally flags `"1.80"`, `"2"` or
`"1.8%"`, whatever the body and whatever the other facts: `"2"` is
allow-listed, and the variant sets of `"1.80"` and of the
percent-stripped `"1.8"` intersect that fact's contribution to the
index. -/
theorem claim6_theorem (body : Option String) (facts : List Fact) (l : List String)
    (hmem : ∃ f ∈ facts, f.value = "1.8")
    (h : assert_numbers_in_facts body (some facts) = .ok l) :
    "1.80" ∉ l ∧ "2" ∉ l ∧ "1.8%" ∉ l := by
  obtain ⟨f₀, hf₀, hv₀⟩ := hmem
  obtain ⟨I, m1, m2, hI, h1, h2, hl⟩ := assert_ok_elim h
  rw [show ((some facts : Option (List Fact)).getD []) = facts from rfl] at hI
  obtain ⟨c, hc, hcI⟩ := index_contrib facts I hI f₀ hf₀
  rw [hv₀] at hc
  have hceq : c = ["1.8", "2", "1.8", "1.80", "1.8"] :=
    (Except.ok.inj ((show factContrib "1.8" = .ok ["1.8", "2", "1.8", "1.80", "1.8"]
      from rfl).symm.trans hc)).symm
  subst hceq
  have h18 : "1.8" ∈ I := hcI "1.8" (List.mem_cons_self _ _)
  have hv180 : _variants (_normalize_number_token "1.80") =
      .ok ["1.80", "2", "1.8", "1.80", "1.8"] := rfl
  have hv18p : _variants (_normalize_number_token "1.8%") =
      .ok ["1.8", "2", "1.8", "1.80", "1.8"] := rfl
  have hpf180 : partFlagged I "1.80" = false :=
    partFlagged_false_of_hit hv180 (by decide) h18
  have htf180 : tokFlagged I "1.80" = false :=
    tokFlagged_false_of_hit hv180 (by decide) h18
  have hpf18p : partFlagged I "1.8%" = false :=
    partFlagged_false_of_hit hv18p (by decide) h18
  have htf18p : tokFlagged I "1.8%" = false :=
    tokFlagged_false_of_hit hv18p (by decide) h18
  have hpf2 : partFlagged I "2" = false := by
    simp only [partFlagged]
    rw [if_pos (by decide)]
  have htf2 : tokFlagged I "2" = false := by
    simp only [tokFlagged]
    rw [if_pos (by decide)]
  have hm1 := flagParts_ok_eq _ _ _ h1
  have hm2 := flagTokens_ok_eq _ _ _ h2
  have key : ∀ x : String, partFlagged I x = false → tokFlagged I x = false → x ∉ l := by
    intro x hpf htf hx
    rw [hl] at hx
    have hx2 := mem_of_mem_uniqueAux _ _ _ hx
    rcases List.mem_append.mp hx2 with hx3 | hx3
    · rw [hm1] at hx3
      have hpred := List.of_mem_filter hx3
      rw [hpf] at hpred
      cases hpred
    · rw [hm2] at hx3
      have hpred := List.of_mem_filter hx3
      rw [htf] at hpred
      cases hpred
  exact ⟨key _ hpf180 htf180, key _ hpf2 htf2, key _ hpf18p htf18p⟩

theorem claim6_witness :
    assert_numbers_in_facts (some "1.80 then 2 then 1.8%")
      (some [⟨"goals", "47", "db"⟩, ⟨"xG", "1.8", "model"⟩]) = .ok [] ∧
    ("1.80" ∉ ([] : List String) ∧ "2" ∉ ([] : List String) ∧ "1.8%" ∉ ([] : List String)) :=
  ⟨rfl, claim6_theorem (some "1.80 then 2 then 1.8%")
    [⟨"goals", "47", "db"⟩, ⟨"xG", "1.8", "model"⟩] []
    ⟨⟨"xG", "1.8", "model"⟩, List.mem_cons_of_mem _ (List.mem_cons_self _ _), rfl⟩ rfl⟩

/-- C7 (counterexample): `normalize` strips every trailing percent sign,
not just one: on `"5%%"` it returns `"5"` where the claim predicts
`"5%"`. -/
theorem claim7_counterexample :
    _normalize_number_token "5%%" = "5" ∧ ("5" : String) ≠ "5%" :=
  ⟨rfl, by decide⟩

/-- C7 (amended): `normalize` removes every comma and strips all trailing
percent signs, leaves sign and decimal point untouched, never raises, and
is idempotent. -/
theorem claim7_theorem :
    (∀ s, _normalize_number_token (_normalize_number_token s) = _normalize_number_token s) ∧
    _normalize_number_token "5%%" = "5" ∧
    _normalize_number_token "-1,234.5%" = "-1234.5" :=
  ⟨normalize_idem, rfl, rfl⟩

/-- C8: order and dedup — `find_ungrounded("47, 47, and 99", [])` is
exactly `["47", "99"]`, and every normally-returned result is free of
duplicates (first occurrences are kept). -/
theorem claim8_theorem :
    assert_numbers_in_facts (some "47, 47, and 99") (some []) = .ok ["47", "99"] ∧
    ∀ (body : Option String) (facts : Option (List Fact)) (l : List String),
      assert_numbers_in_facts body facts = .ok l → l.Nodup := by
  refine ⟨rfl, ?_⟩
  intro body facts l h
  obtain ⟨I, m1, m2, _, _, _, hl⟩ := assert_ok_elim h
  rw [hl]
  exact (uniqueAux_nodup_all _ _).1

theorem claim8_witness : (["47", "99"] : List String).Nodup :=
  claim8_theorem.2 (some "47, 47, and 99") (some []) ["47", "99"] claim8_theorem.1

/-- C9: the verifier's output depends only on the body and on the set of
`value` strings among the facts — any two fact lists exposing the same
values (in particular permutations, or changes confined to `label` and
`source`) produce identical results. -/
theorem claim9_theorem (body : Option String) (F₁ F₂ : List Fact)
    (h : ∀ s, (∃ f ∈ F₁, f.value = s) ↔ (∃ f ∈ F₂, f.value = s)) :
    assert_numbers_in_facts body (some F₁) = assert_numbers_in_facts body (some F₂) := by
  cases hI₁ : _index_fact_numbers F₁ with
  | error e =>
    rw [pyExn_eq e] at hI₁
    have hI₂ : _index_fact_numbers F₂ = .error .exn := by
      rw [index_error_iff]
      exact (exists_value_congr h fun v => factContrib v = .error .exn).mp
        ((index_error_iff F₁).mp hI₁)
    rw [assert_error_build body (some F₁) hI₁, assert_error_build body (some F₂) hI₂]
  | ok I₁ =>
    cases hI₂ : _index_fact_numbers F₂ with
    | error e =>
      exfalso
      have hbad := (index_error_iff F₁).mpr
        ((exists_value_congr h fun v => factContrib v = .error .exn).mpr
          ((index_error_iff F₂).mp (by rw [← pyExn_eq e]; exact hI₂)))
      rw [hI₁] at hbad
      cases hbad
    | ok I₂ =>
      have hmem : ∀ x, x ∈ I₁ ↔ x ∈ I₂ := by
        intro x
        rw [index_ok_mem F₁ I₁ hI₁ x, index_ok_mem F₂ I₂ hI₂ x]
        exact exists_value_congr h fun v => ∃ c, factContrib v = .ok c ∧ x ∈ c
      show assert_numbers_in_facts body (some F₁) = assert_numbers_in_facts body (some F₂)
      simp only [assert_numbers_in_facts,
        show ((some F₁ : Option (List Fact)).getD []) = F₁ from rfl,
        show ((some F₂ : Option (List Fact)).getD []) = F₂ from rfl, hI₁, hI₂,
        flagParts_congr hmem, flagTokens_congr hmem]

theorem claim9_witness :
    assert_numbers_in_facts (some "They had 9 shots")
      (some [⟨"goals", "5", "db"⟩, ⟨"assists", "7", "db"⟩]) =
    assert_numbers_in_facts (some "They had 9 shots")
      (some [⟨"alpha", "7", "feed"⟩, ⟨"beta", "5", "feed"⟩]) :=
  claim9_theorem (some "They had 9 shots") _ _ (by
    intro s
    simp only [List.mem_cons, List.not_mem_nil, or_false]
    constructor
    · rintro ⟨f, rfl | rfl, hv⟩
      · exact ⟨⟨"beta", "5", "feed"⟩, Or.inr rfl, hv⟩
      · exact ⟨⟨"alpha", "7", "feed"⟩, Or.inl rfl, hv⟩
    · rintro ⟨f, rfl | rfl, hv⟩
      · exact ⟨⟨"assists", "7", "db"⟩, Or.inr rfl, hv⟩
      · exact ⟨⟨"goals", "5", "db"⟩, Or.inl rfl, hv⟩)

/-- C10: monotonicity in facts — appending further facts never makes a new
token flagged: on any normally-returning run with facts `F ++ G`, the
result is a sublist (same relative order) of the result for `F` alone,
which also returns normally. -/
theorem claim10_theorem (body : Option String) (F G : List Fact) (l₂ : List String)
    (h : assert_numbers_in_facts body (some (F ++ G)) = .ok l₂) :
    ∃ l₁, assert_numbers_in_facts body (some F) = .ok l₁ ∧ l₂.Sublist l₁ := by
  obtain ⟨I₂, m1₂, m2₂, hI₂, h1₂, h2₂, hl₂⟩ := assert_ok_elim h
  rw [show ((some (F ++ G) : Option (List Fact)).getD []) = F ++ G from rfl] at hI₂
  obtain ⟨IF, IG, hIF, hIG, hIeq⟩ := index_append F G I₂ hI₂
  have hsub : ∀ x, x ∈ IF → x ∈ I₂ := by
    intro x hx
    rw [hIeq]
    exact List.mem_append_left _ hx
  have h1₁ := flagParts_ok_all I₂ _ _ h1₂ IF
  have h2₁ := flagTokens_ok_all I₂ _ _ h2₂ IF
  refine ⟨_, assert_ok_build hIF h1₁ h2₁, ?_⟩
  rw [hl₂, flagParts_ok_eq I₂ _ _ h1₂, flagTokens_ok_eq I₂ _ _ h2₂]
  exact unique_filter_sub _ _ _ _ _ _
    (fun x hx => tok_imp_part x hx)
    (fun x hx => partFlagged_anti hsub x hx)
    (fun x hx => tokFlagged_anti hsub x hx)

theorem claim10_witness :
    assert_numbers_in_facts (some "47 shots") (some []) = .ok ["47"] ∧
    List.Sublist ([] : List String) ["47"] := by
  obtain ⟨l₁, hl₁, hsubl⟩ :=
    claim10_theorem (some "47 shots") [] [⟨"shots", "47", "db"⟩] [] rfl
  have hval : assert_numbers_in_facts (some "47 shots") (some []) = .ok ["47"] := rfl
  have hleq : l₁ = ["47"] := Except.ok.inj (hl₁.symm.trans hval)
  subst hleq
  exact ⟨hval, hsubl⟩

end Guards
